import Mathlib

/-!
Shallow embedding of the commit-replay and pull-request-reconciliation engine
of ChrisCarini/repo-file-sync-action (src/helpers.js `run`, src/git.js `Git`).

JavaScript strings are modelled as `List Char`; the JS string operations the
code uses (`split`, `slice`, `trim`, `replace` with a string pattern,
`replace` with the global issue-reference regex) are given explicit
executable models below, each annotated with the source line it embeds.
-/

namespace RepoFileSync

/-- JS strings are modelled as lists of characters. -/
abbrev Str := List Char

/-- Convert a Lean string literal to the model's string type. -/
def str (s : String) : Str := s.data

/-- SourceCommit: one unit of replay, `{ sha, message }` as built by `run`
(helpers.js 232-249). -/
structure SourceCommit where
  sha : Str
  message : Str
deriving DecidableEq

/-- A commit of the triggering push payload (`github.context.payload.commits`),
carrying `id` and `message` (helpers.js 246-249). -/
structure PayloadCommit where
  id : Str
  message : Str
deriving DecidableEq

/-- The fields of an existing open PR that the replay logic reads:
`number`, `body` (carries the before-ref anchor comment) and `base.sha`
(helpers.js 219-241, git.js 583-587). -/
structure ExistingPr where
  number : Nat
  body : Str
  baseSha : Str
deriving DecidableEq

/-- The parts of `github.context.payload` consumed by `run`:
the `forced` flag, the optional commit list and the `before` sha. -/
structure Payload where
  forced : Bool
  commits : Option (List PayloadCommit)
  before : Str
deriving DecidableEq

/-- One entry of `git ls-tree -r --full-tree`, as parsed by `Git.getTree`
(git.js 234-256). -/
structure GitTreeEntry where
  mode : Str
  type : Str
  sha : Str
  path : Str
deriving DecidableEq

/-! ### JS string primitives -/

/-- JS `s.split(sep)` for a one-character separator: `''.split(sep)` is
`['']`, and separators at the ends produce empty pieces. -/
def splitOnCharJS (sep : Char) : Str → List Str
  | [] => [[]]
  | c :: rest =>
    match splitOnCharJS sep rest with
    | [] => [[]]
    | h :: t => if c = sep then [] :: h :: t else (c :: h) :: t

/-- JS `s.trim()`: strip leading and trailing whitespace. -/
def trimL (s : Str) : Str :=
  ((s.dropWhile Char.isWhitespace).reverse.dropWhile Char.isWhitespace).reverse

/-- A string neither starts nor ends with whitespace (so `trim` is the
identity on it). -/
def trimmedB (s : Str) : Bool :=
  !(s.headD 'a').isWhitespace && !(s.getLastD 'a').isWhitespace

/-- JS `s.replace(pat, repl)` with a plain-string pattern: replaces the
first occurrence only (git.js 444). -/
def replaceFirstStr (pat repl : Str) : Str → Str
  | [] => []
  | c :: rest =>
    if pat.isPrefixOf (c :: rest) then repl ++ (c :: rest).drop pat.length
    else c :: replaceFirstStr pat repl rest

/-- Fuel-driven worker for the issue-reference rewrite regex. The JS source
builds `new RegExp('\(#([0-9]+)\)', 'g')`; inside a single-quoted JS string
the backslashes vanish, so the compiled pattern is `(#([0-9]+))`: the parens
are capture groups, the matched text is `#` followed by a maximal digit run,
and the replacement is `htmlUrl + '/pull/' + digits` (helpers.js 279,
git.js 442). The fuel is the input length, so it never runs out. -/
def rewriteFuel (htmlUrl : Str) : Nat → Str → Str
  | 0, s => s
  | _ + 1, [] => []
  | n + 1, c :: rest =>
    if c = '#' then
      let digits := rest.takeWhile Char.isDigit
      if digits.isEmpty then c :: rewriteFuel htmlUrl n rest
      else htmlUrl ++ str "/pull/" ++ digits ++ rewriteFuel htmlUrl n (rest.dropWhile Char.isDigit)
    else c :: rewriteFuel htmlUrl n rest

/-- JS `msg.replace(new RegExp('\(#([0-9]+)\)', 'g'), htmlUrl + '/pull/$2')`
as used on commit messages (helpers.js 279, git.js 442). -/
def rewriteIssueRefs (htmlUrl : Str) (s : Str) : Str :=
  rewriteFuel htmlUrl s.length s

/-- Modelled from the spec: whether a string contains a parenthesized
issue reference `(#N)` (digits between `(#` and `)`). The spec's rewrite
rule claims only such references are rewritten; this predicate lets the
claim be compared with the code's actual regex. -/
def containsParenIssueRef : Str → Bool
  | '(' :: '#' :: rest =>
    (!(rest.takeWhile Char.isDigit).isEmpty
      && ((rest.dropWhile Char.isDigit).headD ' ' = ')'))
    || containsParenIssueRef rest
  | _ :: rest => containsParenIssueRef rest
  | [] => false

/-- Split a string at the first occurrence of `pat`: returns the part
before and the part after the pattern. -/
def findSub (pat : Str) : Str → Option (Str × Str)
  | [] => none
  | c :: rest =>
    if pat.isPrefixOf (c :: rest) then some ([], (c :: rest).drop pat.length)
    else (findSub pat rest).map (fun p => (c :: p.1, p.2))

/-- Greedy capture: the characters before the last occurrence of `pat`
(`none` if `pat` does not occur). Models the greedy `(.*)` of the anchor
regex, which captures up to the last closing marker on the line. -/
def captureGreedy (pat : Str) : Str → Option Str
  | [] => none
  | c :: rest =>
    match captureGreedy pat rest with
    | some cap => some (c :: cap)
    | none => if pat.isPrefixOf (c :: rest) then some [] else none

/-- `body.match(/<!-- srcRepoBeforeRef::(.*) -->/)?.[1]` (git.js 585):
find the first anchor marker, and capture greedily up to the last ` -->`
on the same line (`.` does not match newlines). Bodies written by
`createOrUpdatePr` place the anchor on a line of its own, which is the
shape this model is faithful to. -/
def extractBeforeRef (body : Str) : Option Str :=
  match findSub (str "<!-- srcRepoBeforeRef::") body with
  | none => none
  | some p => captureGreedy (str " -->") (p.2.takeWhile (fun c => !(c == '\n')))

/-! ### git primitives used by the resolver -/

/-- The commits strictly after the commit `anchor` in a linear oldest-first
history: the output of `git log --reverse --format=%H anchor..HEAD`
(helpers.js 228). -/
def commitsAfter (h : List SourceCommit) (anchor : Str) : List SourceCommit :=
  (h.dropWhile (fun c => !(c.sha == anchor))).drop 1

/-- The newline-separated sha list that `git log --reverse --format=%H`
prints (already trimmed by `execCmd`): empty output for an empty range. -/
def joinSep (sep : Char) : List Str → Str
  | [] => []
  | [x] => x
  | x :: y :: rest => x ++ sep :: joinSep sep (y :: rest)

/-- Resolve a ref argument of `git log -n 1`: the empty string (from mapping
over `''.split('\n')`) and `HEAD` both resolve to the checkout's HEAD, a
40-hex sha resolves to that commit. -/
def resolveRef (h : List SourceCommit) (ref : Str) : Option SourceCommit :=
  if ref.isEmpty || ref == str "HEAD" then h.getLast?
  else h.find? (fun c => c.sha == ref)

/-- `Git.getCommitShaAndMessage` (git.js 182-194): run
`git log -n 1 --format='%H %B' ref`, take the first 40 characters as the
sha and the characters from index 41 on, trimmed, as the message.
`none` models a failing `git log` (unresolvable ref), which rejects the
promise and aborts the session. -/
def getCommitShaAndMessage (h : List SourceCommit) (ref : Str) : Option SourceCommit :=
  (resolveRef h ref).map (fun c =>
    let commitInfo := trimL (c.sha ++ ' ' :: c.message)
    { sha := commitInfo.take 40, message := trimL (commitInfo.drop 41) })

/-- The forced-push replay iterator (helpers.js 227-235): list the hashes of
`beforeRef..HEAD` oldest first, split the output on newlines, parse each
hash with `getCommitShaAndMessage`, and keep only entries with non-empty
sha and message. -/
def forcedPushIterator (h : List SourceCommit) (anchor : Str) : Option (List SourceCommit) :=
  ((splitOnCharJS '\n' (joinSep '\n' ((commitsAfter h anchor).map (fun c => c.sha)))).mapM
      (getCommitShaAndMessage h)).map
    (List.filter (fun c => !c.sha.isEmpty && !c.message.isEmpty))

/-- `Git.getSrcRepoBeforeRef` (git.js 583-587): the anchor comment of the
existing PR body when a PR exists, else `payload.before`. -/
def getSrcRepoBeforeRef (existingPr : Option ExistingPr) (payloadBefore : Str) : Option Str :=
  match existingPr with
  | some pr => extractBeforeRef pr.body
  | none => some payloadBefore

/-- Result of the commit-set resolution step of `run`: either the session
aborts with an error (a rejected `execCmd` promise caught by the outer
`try`), or it yields the replay iterator together with the sha the
destination working copy was hard-reset to (if any). -/
inductive ResolveResult where
  | failed (msg : Str)
  | ok (iterator : List SourceCommit) (resetTo : Option Str)
deriving DecidableEq

/-- The two payload-driven branches of the resolver (helpers.js 243-255):
a delivered commit list is used verbatim (sha from `commit.id`, message
verbatim), else the source checkout's HEAD alone is replayed. -/
def resolveFromPayload (payload : Payload) (srcHistory : List SourceCommit) :
    ResolveResult :=
  match payload.commits with
  | some cs => .ok (cs.map (fun c => { sha := c.id, message := c.message })) none
  | none =>
    match getCommitShaAndMessage srcHistory (str "HEAD") with
    | some c => .ok [c] none
    | none => .failed (str "no HEAD")

/-- The Commit-Set Resolver (helpers.js 214-255): `payload.forced` together
with an existing PR walks source history after the PR-body anchor and
hard-resets the destination to the PR base sha (a missing anchor or an
anchor unknown to the source checkout makes the walked `git log` reject and
the session fail); in every other case the payload decides. -/
def resolveCommitSet (payload : Payload) (existingPr : Option ExistingPr)
    (srcHistory : List SourceCommit) : ResolveResult :=
  match existingPr with
  | some pr =>
    if payload.forced then
      match extractBeforeRef pr.body with
      | none => .failed (str "bad revision undefined..HEAD")
      | some anchor =>
        if !(decide (anchor ∈ srcHistory.map (fun c => c.sha))) then
          .failed (str "unknown revision")
        else
          match forcedPushIterator srcHistory anchor with
          | none => .failed (str "git log failed")
          | some it => .ok it (some pr.baseSha)
    else resolveFromPayload payload srcHistory
  | none => resolveFromPayload payload srcHistory

/-- Well-formed commit: a 40-character whitespace-free sha and a message
that neither starts nor ends with whitespace. -/
def wfCommit (c : SourceCommit) : Bool :=
  c.sha.length == 40 && c.sha.all (fun ch => !ch.isWhitespace) && trimmedB c.message

/-- Well-formed linear history: every commit well-formed and shas distinct. -/
def wfHistory (h : List SourceCommit) : Prop :=
  (∀ c ∈ h, wfCommit c = true) ∧ (h.map (fun c => c.sha)).Nodup

instance (h : List SourceCommit) : Decidable (wfHistory h) := by
  unfold wfHistory; infer_instance

/-! ### Verified-commit publish strategy (git.js 258-350, 625-649) -/

/-- `Git.createGithubBlobs` (git.js 259-284): for one pending commit, every
current tree entry whose sha is found in the parent tree
(`previousTree.findIndex((entry) => entry.sha === treeEntry.sha) !== -1`)
is skipped, and a `createBlob` request is issued for every remaining entry.
The returned list holds the entries for which a blob upload was issued,
in tree order. -/
def createGithubBlobs (previousTree tree : List GitTreeEntry) : List GitTreeEntry :=
  tree.filter (fun e => !(previousTree.any (fun p => p.sha == e.sha)))

/-- The tree and message of one pending commit, as assembled by
`Git.getCommitsDataToPush` (git.js 303-316). -/
structure CommitData where
  commitMessage : Str
  tree : List GitTreeEntry
deriving DecidableEq

/-- One remote commit created by `Git.createGithubTreeAndCommit`
(git.js 625-649): the tree it was built from, its message, and its
`parents` array, which the code always sets to `[ this.lastCommitSha ]`. -/
structure CreatedCommit where
  parents : List Str
  tree : List GitTreeEntry
  message : Str
deriving DecidableEq

/-- The final `updateRef` call of `createGithubVerifiedCommits`
(git.js 342-348): the sha the branch ref is pointed at, with `force: true`. -/
structure RefUpdate where
  sha : Str
  force : Bool
deriving DecidableEq

/-- `Git.createGithubTreeAndCommit` (git.js 625-649): create a remote commit
whose sole parent is the session's current `lastCommitSha`, then advance
`lastCommitSha` to the sha the API assigned to the new commit. The assigned
sha is `newSha` (chosen by the remote, a parameter of the model). -/
def createGithubTreeAndCommit (lastCommitSha : Str) (tree : List GitTreeEntry)
    (message : Str) (newSha : Str) : CreatedCommit × Str :=
  ({ parents := [lastCommitSha], tree := tree, message := message }, newSha)

/-- The commit-creation loop of `createGithubVerifiedCommits` (git.js
337-339), threading `lastCommitSha` through `createGithubTreeAndCommit`.
`newSha i` is the sha the remote assigns to the i-th created commit. -/
def publishCommitsAux (newSha : Nat → Str) : Nat → Str → List CommitData →
    List CreatedCommit × Str
  | _, last, [] => ([], last)
  | i, last, d :: rest =>
    let step := createGithubTreeAndCommit last d.tree d.commitMessage (newSha i)
    let restOut := publishCommitsAux newSha (i + 1) step.2 rest
    (step.1 :: restOut.1, restOut.2)

/-- `Git.createGithubVerifiedCommits` (git.js 319-350) after the idempotent
branch creation: create every pending commit in order, then force-update the
branch ref to the final `lastCommitSha`. -/
def createGithubVerifiedCommits (lastCommitSha0 : Str) (commitsData : List CommitData)
    (newSha : Nat → Str) : List CreatedCommit × RefUpdate :=
  let out := publishCommitsAux newSha 0 lastCommitSha0 commitsData
  (out.1, { sha := out.2, force := true })

/-! ### Replay loop and publish phase of `run` (helpers.js 260-313) -/

/-- Observable actions of the replay loop and PR reconciliation. -/
inductive RunEvent where
  | removeWarning
  | destCommit (message : Str)
  | push
  | createPr
  | updatePr
deriving DecidableEq

/-- One iteration of the replay loop (helpers.js 261-285): check out the
source commit, sync the files, and either (no working-tree change) call
`removePrWarning` — which touches the PR only when one exists (git.js
420-422) — or create a destination commit whose message is the source
message with issue references rewritten (helpers.js 279-280). `changed`
abstracts `git.hasChanges()` for this iteration. -/
def replayStep (htmlUrl : Str) (hasPr : Bool) (changed : Bool)
    (c : SourceCommit) : List RunEvent × List Str :=
  if !changed then ((if hasPr then [.removeWarning] else []), [])
  else
    let m := rewriteIssueRefs htmlUrl c.message
    ([.destCommit m], [m])

/-- The replay loop over the whole iterator, collecting events and the
`modified` commit messages (helpers.js 260-285). -/
def replayLoop (htmlUrl : Str) (hasPr : Bool) (changed : Nat → Bool) :
    Nat → List SourceCommit → List RunEvent × List Str
  | _, [] => ([], [])
  | i, c :: rest =>
    let step := replayStep htmlUrl hasPr (changed i) c
    let restOut := replayLoop htmlUrl hasPr changed (i + 1) rest
    (step.1 ++ restOut.1, step.2 ++ restOut.2)

/-- The publish phase of `run` (helpers.js 287-313): if no iteration
modified anything, the repository's processing returns early — no push, no
PR call, and no PR number is produced. Otherwise push and create or update
the PR; the resulting PR number is the existing PR's number when one
exists, else the number the host assigns to the new PR (`newPrNumber`). -/
def runPublishPhase (htmlUrl : Str) (existingPr : Option ExistingPr)
    (changed : Nat → Bool) (iterator : List SourceCommit) (newPrNumber : Nat) :
    List RunEvent × Option Nat :=
  let loopOut := replayLoop htmlUrl existingPr.isSome changed 0 iterator
  if loopOut.2.isEmpty then (loopOut.1, none)
  else
    match existingPr with
    | some pr => (loopOut.1 ++ [.push, .updatePr], some pr.number)
    | none => (loopOut.1 ++ [.push, .createPr], some newPrNumber)

/-! ### PR title construction (git.js 432-450) -/

/-- JS `Array.prototype.join` with a string separator. -/
def joinSep2 (sep : Str) : List Str → Str
  | [] => []
  | [x] => x
  | x :: y :: rest => x ++ sep ++ joinSep2 sep (y :: rest)

/-- The per-message rewrite of `createOrUpdatePr` (git.js 439-445): rewrite
issue references to absolute PR URLs, then remove the first occurrence of
`https://github.com/`. -/
def prMessageRewrite (htmlUrl : Str) (m : Str) : Str :=
  replaceFirstStr (str "https://github.com/") [] (rewriteIssueRefs htmlUrl m)

/-- `title = commitMessages.map((message) => message.split('\n')[0]).join('; ')`
applied to the rewritten messages (git.js 439-450). -/
def prTitle (htmlUrl : Str) (commitMessages : List Str) : Str :=
  joinSep2 (str "; ")
    ((commitMessages.map (prMessageRewrite htmlUrl)).map
      (fun m => (splitOnCharJS '\n' m).headD []))

/-- The commit-message aggregation of `run` (helpers.js 295-311): forced
pushes use only the messages of this run's modified commits; otherwise an
existing PR contributes its commits' messages followed by the payload's;
otherwise the payload's messages alone. -/
def selectCommitMessages (forced : Bool) (existingPrPresent : Bool)
    (modifiedMessages existingPrMessages payloadMessages : List Str) : List Str :=
  if forced then modifiedMessages
  else if existingPrPresent then existingPrMessages ++ payloadMessages
  else payloadMessages

/-! ### PR metadata application (helpers.js 315-363) and auto-merge
(git.js 525-581) -/

/-- The five metadata steps of `run`. -/
inductive MetaStep where
  | labels
  | assignees
  | reviewers
  | teamReviewers
  | autoMerge
deriving DecidableEq

/-- Outcome of one metadata step: the call succeeded, or it threw and the
surrounding `try/catch` downgraded the failure to a warning. -/
inductive StepOutcome where
  | ok
  | warned
deriving DecidableEq

/-- The configuration inputs guarding the metadata steps. -/
structure MetaConfig where
  prLabels : Option (List Str)
  assignees : Option (List Str)
  reviewers : Option (List Str)
  teamReviewers : Option (List Str)
  autoMergeMergeMethod : Option Str
  fork : Bool

/-- The metadata steps `run` attempts, in program order (helpers.js
315-363). Labels, assignees, reviewers and team reviewers each require a
defined non-empty list and `!FORK`; the auto-merge block is guarded only by
`AUTO_MERGE_MERGE_METHOD !== undefined`. -/
def metaSteps (cfg : MetaConfig) : List MetaStep :=
  (match cfg.prLabels with
   | some ls => if !ls.isEmpty && !cfg.fork then [.labels] else []
   | none => []) ++
  (match cfg.assignees with
   | some ls => if !ls.isEmpty && !cfg.fork then [.assignees] else []
   | none => []) ++
  (match cfg.reviewers with
   | some ls => if !ls.isEmpty && !cfg.fork then [.reviewers] else []
   | none => []) ++
  (match cfg.teamReviewers with
   | some ls => if !ls.isEmpty && !cfg.fork then [.teamReviewers] else []
   | none => []) ++
  (match cfg.autoMergeMergeMethod with
   | some _ => [.autoMerge]
   | none => [])

/-- Run the metadata phase: every guarded step executes inside its own
`try { ... } catch (err) { core.warning(...) }`, so a failing step is
recorded as a warning and the following steps still run. `fails` is the
failure oracle for the underlying API calls. -/
def runMetadataPhase (cfg : MetaConfig) (fails : MetaStep → Bool) :
    List (MetaStep × StepOutcome) :=
  (metaSteps cfg).map (fun s => (s, if fails s then .warned else .ok))

/-- JS `String.prototype.toUpperCase` on the method value. -/
def upperStr (s : Str) : Str := s.map Char.toUpper

/-- The merge-method validation of `enablePrAutoMerge` (git.js 531-533):
`[ 'MERGE', 'REBASE', 'SQUASH' ].includes(mergeMethod.toUpperCase())`. -/
def validAutoMergeMethod (m : Str) : Bool :=
  [str "MERGE", str "REBASE", str "SQUASH"].contains (upperStr m)

/-- Observable actions of `Git.enablePrAutoMerge`. -/
inductive AutoMergeEvent where
  | warnNoPr
  | errorLog
  | lookupPrId
  | mutationAttempt (method : Str)
deriving DecidableEq

/-- `Git.enablePrAutoMerge` (git.js 525-581): without a PR it warns and
returns; with an invalid method it calls `core.error` — which only logs an
error annotation and does not throw — and execution falls through to the
GraphQL id lookup and the `enablePullRequestAutoMerge` mutation, issued
with the upper-cased method in every case. -/
def enablePrAutoMerge (hasPr : Bool) (mergeMethod : Str) : List AutoMergeEvent :=
  if !hasPr then [.warnNoPr]
  else
    (if validAutoMergeMethod mergeMethod then [] else [.errorLog]) ++
    [.lookupPrId, .mutationAttempt (upperStr mergeMethod)]

/-! ### Concrete fixtures used to instantiate the theorems -/

/-- A 40-character sha made of `a`s. -/
def wSha40a : Str := List.replicate 40 'a'

/-- A 40-character sha made of `b`s. -/
def wSha40b : Str := List.replicate 40 'b'

/-- A 40-character sha made of `c`s. -/
def wSha40c : Str := List.replicate 40 'c'

def wCommitA : SourceCommit := { sha := wSha40a, message := str "init" }

def wCommitB : SourceCommit := { sha := wSha40b, message := str "second" }

/-- A commit whose message is empty. -/
def wCommitEmpty : SourceCommit := { sha := wSha40c, message := [] }

/-- A two-commit source history, oldest first. -/
def wHistory : List SourceCommit := [wCommitA, wCommitB]

/-- A three-commit source history containing an empty-message commit. -/
def wHistory3 : List SourceCommit := [wCommitA, wCommitEmpty, wCommitB]

/-- A PR body whose anchor comment points at `wSha40a`. -/
def wPrBodyA : Str := str "<!-- srcRepoBeforeRef::" ++ wSha40a ++ str " -->"

/-- A PR body whose anchor comment points at `wSha40b` (the source HEAD of
`wHistory`, i.e. no new commits since the last sync). -/
def wPrBodyB : Str := str "<!-- srcRepoBeforeRef::" ++ wSha40b ++ str " -->"

def wPrA : ExistingPr := { number := 7, body := wPrBodyA, baseSha := str "basesha" }

def wPrB : ExistingPr := { number := 7, body := wPrBodyB, baseSha := str "basesha" }

/-- A forced-push payload. -/
def wPayloadForced : Payload := { forced := true, commits := some [], before := str "x" }

/-- A non-forced payload delivering one commit. -/
def wPayloadNF : Payload :=
  { forced := false
    commits := some [{ id := str "payloadsha1", message := str "payload message 1" }]
    before := str "x" }

/-- A non-forced payload with no commit list (manual dispatch). -/
def wPayloadDispatch : Payload := { forced := false, commits := none, before := str "x" }

def wChangedFalse : Nat → Bool := fun _ => false

def wChangedTrue : Nat → Bool := fun _ => true

/-- Remote-assigned shas for created commits. -/
def wNewSha : Nat → Str := fun i => if i = 0 then str "newsha0" else str "newsha1"

/-- Default `CreatedCommit` for positional indexing. -/
def dCreated : CreatedCommit := { parents := [], tree := [], message := [] }

/-- Default `CommitData` for positional indexing. -/
def dData : CommitData := { commitMessage := [], tree := [] }

/-- A blob sha shared by two tree entries. -/
def wBlobSha : Str := str "blobsha"

def wTreeE1 : GitTreeEntry :=
  { mode := str "100644", type := str "blob", sha := wBlobSha, path := str "a.txt" }

/-- Same blob content as `wTreeE1`, different path. -/
def wTreeE2 : GitTreeEntry :=
  { mode := str "100644", type := str "blob", sha := wBlobSha, path := str "b.txt" }

def wTreeE3 : GitTreeEntry :=
  { mode := str "100644", type := str "blob", sha := str "othersha", path := str "c.txt" }

/-- Two pending commits for the verified-commit publisher. -/
def wCommitsData : List CommitData :=
  [ { commitMessage := str "m1", tree := [wTreeE1] }
  , { commitMessage := str "m2", tree := [wTreeE1, wTreeE3] } ]

/-- A metadata configuration with a fork workflow and auto-merge enabled. -/
def wMetaForkCfg : MetaConfig :=
  { prLabels := some [str "sync"]
    assignees := some [str "alice"]
    reviewers := none
    teamReviewers := none
    autoMergeMergeMethod := some (str "MERGE")
    fork := true }

/-- The same configuration without a fork workflow. -/
def wMetaNoForkCfg : MetaConfig :=
  { prLabels := some [str "sync"]
    assignees := some [str "alice"]
    reviewers := none
    teamReviewers := none
    autoMergeMergeMethod := some (str "MERGE")
    fork := false }

/-- A failure oracle under which only the labels call throws. -/
def wFailsLabels : MetaStep → Bool := fun s => decide (s = MetaStep.labels)

/-! ### Helper lemmas: the JS split/trim/slice primitives -/

theorem splitJS_ne_nil (sep : Char) (l : Str) : splitOnCharJS sep l ≠ [] := by
  cases l with
  | nil => simp [splitOnCharJS]
  | cons c t =>
    simp only [splitOnCharJS]
    cases h : splitOnCharJS sep t with
    | nil => simp
    | cons a u => dsimp only; split <;> simp

theorem splitJS_of_not_mem (sep : Char) (l : Str) (h : sep ∉ l) :
    splitOnCharJS sep l = [l] := by
  induction l with
  | nil => rfl
  | cons c t ih =>
    have hc : ¬(c = sep) := fun e => h (e ▸ List.mem_cons_self c t)
    have ht : sep ∉ t := fun hm => h (List.mem_cons_of_mem _ hm)
    simp only [splitOnCharJS]
    rw [ih ht]
    simp [hc]

theorem splitJS_append_sep (sep : Char) (x r : Str) (hx : sep ∉ x) :
    splitOnCharJS sep (x ++ sep :: r) = x :: splitOnCharJS sep r := by
  induction x with
  | nil =>
    simp only [List.nil_append, splitOnCharJS]
    cases h : splitOnCharJS sep r with
    | nil => exact absurd h (splitJS_ne_nil sep r)
    | cons a u => simp
  | cons c x' ih =>
    have hc : ¬(c = sep) := fun e => hx (e ▸ List.mem_cons_self c x')
    have hx' : sep ∉ x' := fun hm => hx (List.mem_cons_of_mem _ hm)
    simp only [List.cons_append, splitOnCharJS, List.append_eq]
    rw [ih hx']
    simp [hc]

theorem splitJS_joinSep (sep : Char) (xs : List Str) (hne : xs ≠ [])
    (hx : ∀ x ∈ xs, sep ∉ x) : splitOnCharJS sep (joinSep sep xs) = xs := by
  induction xs with
  | nil => exact absurd rfl hne
  | cons x xs ih =>
    cases xs with
    | nil => simpa [joinSep] using splitJS_of_not_mem sep x (hx x (by simp))
    | cons y rest =>
      rw [joinSep, splitJS_append_sep sep x _ (hx x (by simp)),
        ih (by simp) (fun z hz => hx z (List.mem_cons_of_mem _ hz))]

theorem splitJS_headD (sep : Char) (l : Str) :
    (splitOnCharJS sep l).headD [] = l.takeWhile (fun c => !(c == sep)) := by
  induction l with
  | nil => rfl
  | cons c t ih =>
    simp only [splitOnCharJS]
    cases h : splitOnCharJS sep t with
    | nil => exact absurd h (splitJS_ne_nil sep t)
    | cons a u =>
      rw [h] at ih
      by_cases hc : c = sep
      · subst hc
        simp [List.takeWhile_cons]
      · simp only [if_neg hc, List.headD_cons, List.takeWhile_cons]
        simp only [List.headD_cons] at ih
        simp [hc, ih]

theorem takeWhile_eq_self_of_all (p : Char → Bool) (l : Str)
    (h : ∀ c ∈ l, p c = true) : l.takeWhile p = l := by
  induction l with
  | nil => rfl
  | cons c t ih =>
    rw [List.takeWhile_cons, if_pos (h c (by simp)),
      ih (fun d hd => h d (List.mem_cons_of_mem _ hd))]

theorem takeWhile_append_of_all (p : Char → Bool) (l m : Str)
    (h : ∀ c ∈ l, p c = true) : (l ++ m).takeWhile p = l ++ m.takeWhile p := by
  induction l with
  | nil => rfl
  | cons c t ih =>
    rw [List.cons_append, List.takeWhile_cons, if_pos (h c (by simp)),
      ih (fun d hd => h d (List.mem_cons_of_mem _ hd)), List.cons_append]

theorem takeWhile_eq_nil_of_head (p : Char → Bool) (l : Str)
    (h : ∀ c, l.head? = some c → p c = false) : l.takeWhile p = [] := by
  cases l with
  | nil => rfl
  | cons c t => rw [List.takeWhile_cons, if_neg (by simp [h c rfl])]

theorem dropWhile_eq_self_of_head (p : Char → Bool) (l : Str)
    (h : ∀ c, l.head? = some c → p c = false) : l.dropWhile p = l := by
  cases l with
  | nil => rfl
  | cons c t => rw [List.dropWhile_cons, if_neg (by simp [h c rfl])]

theorem dropWhile_append_of_all (p : Char → Bool) (l m : Str)
    (h : ∀ c ∈ l, p c = true) : (l ++ m).dropWhile p = m.dropWhile p := by
  induction l with
  | nil => rfl
  | cons c t ih =>
    rw [List.cons_append, List.dropWhile_cons, if_pos (h c (by simp)),
      ih (fun d hd => h d (List.mem_cons_of_mem _ hd))]

theorem trimL_eq_self (s : Str) (h : trimmedB s = true) : trimL s = s := by
  have hh : ((s.headD 'a').isWhitespace = false) ∧ ((s.getLastD 'a').isWhitespace = false) := by
    simpa [trimmedB, Bool.and_eq_true] using h
  unfold trimL
  have h1 : s.dropWhile Char.isWhitespace = s := by
    refine dropWhile_eq_self_of_head _ _ (fun c hc => ?_)
    cases s with
    | nil => simp at hc
    | cons d t =>
      simp only [List.head?_cons, Option.some.injEq] at hc
      subst hc
      simpa using hh.1
  rw [h1]
  have h2 : s.reverse.dropWhile Char.isWhitespace = s.reverse := by
    refine dropWhile_eq_self_of_head _ _ (fun c hc => ?_)
    rw [List.head?_reverse] at hc
    have : s.getLastD 'a' = c := by
      rw [List.getLastD_eq_getLast?, hc]
      rfl
    rw [← this]
    exact hh.2
  rw [h2, List.reverse_reverse]

/-! ### Helper lemmas: parsing `git log -n 1 --format='%H %B'` output -/

theorem wf_sha_length (c : SourceCommit) (h : wfCommit c = true) : c.sha.length = 40 := by
  have := (Bool.and_eq_true ..).mp ((Bool.and_eq_true ..).mp h).1
  exact Nat.beq_eq ▸ (by simpa using this.1)

theorem wf_sha_nws (c : SourceCommit) (h : wfCommit c = true) :
    ∀ ch ∈ c.sha, ch.isWhitespace = false := by
  have := (Bool.and_eq_true ..).mp ((Bool.and_eq_true ..).mp h).1
  intro ch hch
  simpa using List.all_eq_true.mp this.2 ch hch

theorem wf_msg_trimmed (c : SourceCommit) (h : wfCommit c = true) :
    trimmedB c.message = true :=
  ((Bool.and_eq_true ..).mp h).2

theorem wf_sha_ne_nil (c : SourceCommit) (h : wfCommit c = true) : c.sha ≠ [] := by
  intro e
  have := wf_sha_length c h
  rw [e] at this
  simp at this

theorem mem_of_getLast?_eq {α : Type} (l : List α) (a : α)
    (h : l.getLast? = some a) : a ∈ l := by
  obtain ⟨hne, he⟩ := List.mem_getLast?_eq_getLast (x := a) (l := l) h
  rw [he]
  exact List.getLast_mem hne

/-- `trim` of the `'%H %B'` output: the sha alone when the message is
empty, the untouched output otherwise. -/
theorem trimL_info (c : SourceCommit) (h : wfCommit c = true) :
    trimL (c.sha ++ ' ' :: c.message)
      = if c.message.isEmpty then c.sha else c.sha ++ ' ' :: c.message := by
  have hnws := wf_sha_nws c h
  have hne := wf_sha_ne_nil c h
  have h1 : (c.sha ++ ' ' :: c.message).dropWhile Char.isWhitespace
      = c.sha ++ ' ' :: c.message := by
    refine dropWhile_eq_self_of_head _ _ (fun d hd => ?_)
    cases hsha : c.sha with
    | nil => exact absurd hsha hne
    | cons s0 s' =>
      rw [hsha] at hd
      simp only [List.cons_append, List.head?_cons, Option.some.injEq] at hd
      exact hd ▸ hnws s0 (by rw [hsha]; simp)
  by_cases hmsg : c.message = []
  · have h2 : (c.sha ++ [' ']).reverse = ' ' :: c.sha.reverse := by
      simp
    have h3 : c.sha.reverse.dropWhile Char.isWhitespace = c.sha.reverse := by
      refine dropWhile_eq_self_of_head _ _ (fun d hd => ?_)
      rw [List.head?_reverse] at hd
      exact hnws d (mem_of_getLast?_eq _ _ hd)
    rw [hmsg] at h1 ⊢
    unfold trimL
    rw [h1, h2, List.dropWhile_cons, if_pos (by decide), h3, List.reverse_reverse]
    simp
  · have htm := wf_msg_trimmed c h
    have h2 : (c.sha ++ ' ' :: c.message).reverse
        = c.message.reverse ++ ' ' :: c.sha.reverse := by
      rw [List.reverse_append, List.reverse_cons]
      simp
    have h3 : (c.message.reverse ++ ' ' :: c.sha.reverse).dropWhile Char.isWhitespace
        = c.message.reverse ++ ' ' :: c.sha.reverse := by
      refine dropWhile_eq_self_of_head _ _ (fun d hd => ?_)
      cases hrev : c.message.reverse with
      | nil => exact absurd (by simpa using hrev) hmsg
      | cons r0 r' =>
        rw [hrev] at hd
        simp only [List.cons_append, List.head?_cons, Option.some.injEq] at hd
        have hlast : c.message.getLastD 'a' = r0 := by
          rw [List.getLastD_eq_getLast?, ← List.head?_reverse, hrev]
          rfl
        have hb := ((Bool.and_eq_true ..).mp (by simpa only [trimmedB] using htm :
          (!(c.message.headD 'a').isWhitespace
            && !(c.message.getLastD 'a').isWhitespace) = true)).2
        rw [hlast] at hb
        rw [← hd]
        simpa using hb
    unfold trimL
    rw [h1, h2, h3, ← h2, List.reverse_reverse,
      if_neg (by simpa [List.isEmpty_iff] using hmsg)]

/-- Parsing the log output of a well-formed commit recovers the commit. -/
theorem parse_slice (c : SourceCommit) (h : wfCommit c = true) :
    (trimL (c.sha ++ ' ' :: c.message)).take 40 = c.sha
    ∧ trimL ((trimL (c.sha ++ ' ' :: c.message)).drop 41) = c.message := by
  have hlen := wf_sha_length c h
  by_cases hmsg : c.message = []
  · rw [trimL_info c h, hmsg]
    simp only [List.isEmpty_nil, if_true]
    constructor
    · rw [← hlen, List.take_length]
    · rw [List.drop_eq_nil_of_le (by omega)]
      rfl
  · rw [trimL_info c h, if_neg (by simpa [List.isEmpty_iff] using hmsg)]
    constructor
    · rw [← hlen, List.take_left]
    · have h41 : (41 : Nat) = c.sha.length + 1 := by omega
      rw [h41, ← List.drop_drop, List.drop_left]
      have hdrop : (' ' :: c.message).drop 1 = c.message := rfl
      rw [hdrop]
      exact trimL_eq_self c.message (wf_msg_trimmed c h)

theorem find?_sha (h : List SourceCommit) (c : SourceCommit)
    (hn : (h.map (fun d => d.sha)).Nodup) (hc : c ∈ h) :
    h.find? (fun d => d.sha == c.sha) = some c := by
  induction h with
  | nil => simp at hc
  | cons d t ih =>
    by_cases hd : d.sha = c.sha
    · have hdc : d = c := by
        rcases List.mem_cons.mp hc with h1 | h1
        · exact h1.symm
        · exfalso
          have : d.sha ∈ t.map (fun x => x.sha) := by
            rw [hd]
            exact List.mem_map.mpr ⟨c, h1, rfl⟩
          exact (List.nodup_cons.mp hn).1 this
      rw [List.find?_cons_of_pos _ (by simp [hd]), hdc]
    · have hct : c ∈ t := by
        rcases List.mem_cons.mp hc with h1 | h1
        · exact absurd (h1 ▸ rfl) hd
        · exact h1
      rw [List.find?_cons_of_neg _ (by simp [hd])]
      exact ih (List.nodup_cons.mp hn).2 hct

theorem resolveRef_sha (h : List SourceCommit) (c : SourceCommit)
    (hn : (h.map (fun d => d.sha)).Nodup) (hc : c ∈ h) (hwf : wfCommit c = true) :
    resolveRef h c.sha = some c := by
  have h1 : c.sha.isEmpty = false := by
    cases hsha : c.sha with
    | nil => exact absurd hsha (wf_sha_ne_nil c hwf)
    | cons a b => rfl
  have h2 : ¬(c.sha = str "HEAD") := by
    intro e
    have hl := wf_sha_length c hwf
    rw [e] at hl
    simp [str] at hl
  unfold resolveRef
  rw [if_neg (by simp [h1, h2])]
  exact find?_sha h c hn hc

theorem getCommitShaAndMessage_sha (h : List SourceCommit) (c : SourceCommit)
    (hn : (h.map (fun d => d.sha)).Nodup) (hc : c ∈ h) (hwf : wfCommit c = true) :
    getCommitShaAndMessage h c.sha = some c := by
  have hp := parse_slice c hwf
  unfold getCommitShaAndMessage
  rw [resolveRef_sha h c hn hc hwf]
  show some _ = some c
  congr 1
  revert hp
  cases c
  intro hp
  simp only [SourceCommit.mk.injEq]
  exact ⟨hp.1, hp.2⟩

theorem getCommitShaAndMessage_head (h : List SourceCommit) (hne : h ≠ [])
    (hwf : wfCommit (h.getLast hne) = true) (ref : Str)
    (href : (ref.isEmpty || ref == str "HEAD") = true) :
    getCommitShaAndMessage h ref = some (h.getLast hne) := by
  have hp := parse_slice (h.getLast hne) hwf
  unfold getCommitShaAndMessage resolveRef
  rw [if_pos href, List.getLast?_eq_getLast h hne]
  show some _ = some (h.getLast hne)
  congr 1
  revert hp
  generalize h.getLast hne = g
  intro hp
  cases g
  simp only [SourceCommit.mk.injEq]
  exact ⟨hp.1, hp.2⟩

theorem mapM_parse (h : List SourceCommit)
    (hn : (h.map (fun d => d.sha)).Nodup) (hwf : ∀ c ∈ h, wfCommit c = true) :
    ∀ cs : List SourceCommit, (∀ c ∈ cs, c ∈ h) →
      (cs.map (fun c => c.sha)).mapM (getCommitShaAndMessage h) = some cs := by
  intro cs
  induction cs with
  | nil => intro _; rfl
  | cons c t ih =>
    intro hsub
    have hcmem : c ∈ h := hsub c (by simp)
    rw [List.map_cons, List.mapM_cons,
      getCommitShaAndMessage_sha h c hn hcmem (hwf c hcmem),
      ih (fun d hd => hsub d (List.mem_cons_of_mem _ hd))]
    rfl

theorem commitsAfter_subset (h : List SourceCommit) (anchor : Str) :
    ∀ c ∈ commitsAfter h anchor, c ∈ h := by
  intro c hc
  unfold commitsAfter at hc
  have h1 : List.Sublist ((h.dropWhile (fun c => !(c.sha == anchor))).drop 1)
      (h.dropWhile (fun c => !(c.sha == anchor))) := List.drop_sublist ..
  have h2 : List.Sublist (h.dropWhile (fun c => !(c.sha == anchor))) h :=
    List.dropWhile_sublist ..
  exact h2.subset (h1.subset hc)

/-! ### Helper lemmas: the forced-push iterator -/

theorem sha_no_newline (c : SourceCommit) (hwf : wfCommit c = true) : '\n' ∉ c.sha := by
  intro hmem
  have := wf_sha_nws c hwf '\n' hmem
  simp at this

/-- The forced-push iterator over a non-empty walk: the walked commits with
the empty-message ones dropped. -/
theorem forcedPushIterator_of_ne (h : List SourceCommit) (anchor : Str)
    (hWF : wfHistory h) (hne : commitsAfter h anchor ≠ []) :
    forcedPushIterator h anchor
      = some ((commitsAfter h anchor).filter (fun c => !c.message.isEmpty)) := by
  obtain ⟨hwf, hnodup⟩ := hWF
  have hsub := commitsAfter_subset h anchor
  unfold forcedPushIterator
  have hjoin : splitOnCharJS '\n'
      (joinSep '\n' ((commitsAfter h anchor).map (fun c => c.sha)))
      = (commitsAfter h anchor).map (fun c => c.sha) := by
    refine splitJS_joinSep '\n' _ (by simpa using hne) (fun x hx => ?_)
    obtain ⟨c, hc, hcx⟩ := List.mem_map.mp hx
    exact hcx ▸ sha_no_newline c (hwf c (hsub c hc))
  rw [hjoin, mapM_parse h hnodup hwf (commitsAfter h anchor) hsub]
  simp only [Option.map_some', Option.some.injEq]
  refine List.filter_congr (fun c hc => ?_)
  have : c.sha.isEmpty = false := by
    cases hsha : c.sha with
    | nil => exact absurd hsha (wf_sha_ne_nil c (hwf c (hsub c hc)))
    | cons a b => rfl
  simp [this]

/-- The forced-push iterator over an empty walk (`beforeRef` is HEAD): JS
`''.split('\n')` is `['']`, and the empty ref resolves to HEAD, so the
"replay nothing" case actually replays the parsed HEAD commit (unless its
message is empty, in which case the filter drops it). -/
theorem forcedPushIterator_of_empty (h : List SourceCommit) (anchor : Str)
    (hWF : wfHistory h) (hne : h ≠ []) (he : commitsAfter h anchor = []) :
    forcedPushIterator h anchor
      = some (if (h.getLast hne).message.isEmpty then [] else [h.getLast hne]) := by
  obtain ⟨hwf, _⟩ := hWF
  have hwl : wfCommit (h.getLast hne) = true := hwf _ (List.getLast_mem hne)
  unfold forcedPushIterator
  rw [he]
  simp only [List.map_nil, joinSep, splitOnCharJS]
  rw [show List.mapM (getCommitShaAndMessage h) [[]]
      = do { let x ← getCommitShaAndMessage h []; pure [x] } from rfl]
  rw [getCommitShaAndMessage_head h hne hwl [] (by rfl)]
  have hshane : (h.getLast hne).sha.isEmpty = false := by
    cases hsha : (h.getLast hne).sha with
    | nil => exact absurd hsha (wf_sha_ne_nil _ hwl)
    | cons a b => rfl
  by_cases hm : (h.getLast hne).message.isEmpty
  · simp [List.filter, hshane, hm]
  · simp [List.filter, hshane, hm]

/-! ### Claims C1, C2, C10: the Commit-Set Resolver -/

/-- C1, counterexample: for a forced push with an existing PR whose anchor
equals the source HEAD (no new source commits), the code's replay sequence
is not empty — JS `''.split('\n')` is `['']` and `git log -n 1` with an
empty ref falls back to HEAD, so the single parsed HEAD commit is replayed
again, contradicting the claim's "replaying again with no new source
commits yields an empty sequence". -/
theorem c1_counterexample :
    resolveCommitSet wPayloadForced (some wPrB) wHistory
      = .ok [wCommitB] (some (str "basesha"))
    ∧ ([wCommitB] : List SourceCommit) ≠ [] := by
  constructor
  · decide
  · decide

/-- C1 (amended): for a forced push with an existing PR over a well-formed
source history with non-empty commit messages, the replay sequence equals
the source history strictly after the PR-body anchor up to and including
HEAD, oldest first, and the destination working copy is reset hard to the
existing PR's base sha — except that when no commits follow the anchor the
sequence is the single parsed HEAD commit rather than the empty sequence. -/
theorem c1_theorem (payload : Payload) (pr : ExistingPr) (h : List SourceCommit)
    (anchor : Str) (hWF : wfHistory h) (hne : h ≠ [])
    (hforced : payload.forced = true)
    (hanchor : extractBeforeRef pr.body = some anchor)
    (hmem : anchor ∈ h.map (fun c => c.sha))
    (hmsgs : ∀ c ∈ h, c.message ≠ []) :
    resolveCommitSet payload (some pr) h =
      .ok (if commitsAfter h anchor = [] then [h.getLast hne]
           else commitsAfter h anchor)
        (some pr.baseSha) := by
  have hdec : decide (anchor ∈ h.map (fun c => c.sha)) = true := decide_eq_true hmem
  have hnot : ¬((!decide (anchor ∈ h.map (fun c => c.sha))) = true) := by
    rw [hdec]
    simp
  simp only [resolveCommitSet]
  rw [if_pos hforced, hanchor]
  dsimp only
  rw [if_neg hnot]
  by_cases he : commitsAfter h anchor = []
  · rw [forcedPushIterator_of_empty h anchor hWF hne he]
    have hml : ¬((h.getLast hne).message.isEmpty = true) := by
      simpa [List.isEmpty_iff] using hmsgs (h.getLast hne) (List.getLast_mem hne)
    rw [if_neg hml, if_pos he]
  · rw [forcedPushIterator_of_ne h anchor hWF he]
    have hfil : (commitsAfter h anchor).filter (fun c => !c.message.isEmpty)
        = commitsAfter h anchor := by
      refine List.filter_eq_self.mpr (fun c hc => ?_)
      simpa [List.isEmpty_iff] using hmsgs c (commitsAfter_subset h anchor c hc)
    rw [hfil, if_neg he]

/-- C1, witness: the amended theorem applied to a concrete two-commit
history with the anchor on the first commit. -/
theorem c1_witness :
    resolveCommitSet wPayloadForced (some wPrA) wHistory
      = .ok [wCommitB] (some (str "basesha")) := by
  have hh := c1_theorem wPayloadForced wPrA wHistory wSha40a
    (by decide) (by decide) (by decide) (by decide) (by decide) (by decide)
  rw [hh]
  decide

/-- C2: for every non-forced push, a delivered commit list is replayed
verbatim (sha from the payload commit's `id`, message verbatim, same
order) without touching the source history, and with no commit list the
replay sequence is the single parsed HEAD commit of the source checkout. -/
theorem c2_theorem (payload : Payload) (existingPr : Option ExistingPr)
    (h : List SourceCommit) (hforced : payload.forced = false) :
    (∀ cs, payload.commits = some cs → cs ≠ [] →
      resolveCommitSet payload existingPr h
        = .ok (cs.map (fun c => { sha := c.id, message := c.message })) none
      ∧ ∀ h2, resolveCommitSet payload existingPr h2
          = resolveCommitSet payload existingPr h)
    ∧ (payload.commits = none → ∀ (hne : h ≠ []),
        wfCommit (h.getLast hne) = true →
        resolveCommitSet payload existingPr h = .ok [h.getLast hne] none) := by
  have hbranch : ∀ h2 : List SourceCommit,
      resolveCommitSet payload existingPr h2 = resolveFromPayload payload h2 := by
    intro h2
    cases existingPr with
    | none => rfl
    | some pr =>
      simp only [resolveCommitSet]
      rw [if_neg (by simp [hforced])]
  constructor
  · intro cs hcs _
    constructor
    · rw [hbranch h]
      unfold resolveFromPayload
      rw [hcs]
    · intro h2
      rw [hbranch h, hbranch h2]
      unfold resolveFromPayload
      rw [hcs]
  · intro hnone hne hwl
    rw [hbranch h]
    unfold resolveFromPayload
    rw [hnone, getCommitShaAndMessage_head h hne hwl (str "HEAD") (by rfl)]

/-- C2, witness: the theorem applied to a concrete non-forced payload with
one delivered commit, and to a concrete dispatch payload with none. -/
theorem c2_witness :
    resolveCommitSet wPayloadNF none wHistory
      = .ok [{ sha := str "payloadsha1", message := str "payload message 1" }] none
    ∧ resolveCommitSet wPayloadDispatch (some wPrA) wHistory
      = .ok [wCommitB] none := by
  have h1 := (c2_theorem wPayloadNF none wHistory (by decide)).1
    [{ id := str "payloadsha1", message := str "payload message 1" }] rfl (by decide)
  have h2 := (c2_theorem wPayloadDispatch (some wPrA) wHistory (by decide)).2
    rfl (by decide) (by decide)
  constructor
  · exact h1.1
  · have hlast : wHistory.getLast (by decide) = wCommitB := by decide
    rw [← hlast]
    exact h2

theorem sha_inj (h : List SourceCommit) (hn : (h.map (fun c => c.sha)).Nodup)
    (c d : SourceCommit) (hc : c ∈ h) (hd : d ∈ h) (he : c.sha = d.sha) :
    c = d :=
  List.inj_on_of_nodup_map hn hc hd he

theorem wf_elem_facts (c : SourceCommit) (hwf : wfCommit c = true)
    (hm : ¬(c.message.isEmpty = true)) :
    c.sha.length = 40 ∧ c.sha ≠ [] ∧ c.message ≠ [] :=
  ⟨wf_sha_length c hwf, wf_sha_ne_nil c hwf, by simpa [List.isEmpty_iff] using hm⟩

/-- C10: over a well-formed history, every element of the forced-push
replay sequence carries a non-empty 40-character sha and a non-empty
message, and any walked commit whose message is empty is silently dropped:
no element of the sequence carries its sha. -/
theorem c10_theorem (h : List SourceCommit) (anchor : Str)
    (it : List SourceCommit) (hWF : wfHistory h)
    (hit : forcedPushIterator h anchor = some it) :
    (∀ c ∈ it, c.sha.length = 40 ∧ c.sha ≠ [] ∧ c.message ≠ [])
    ∧ (∀ d ∈ commitsAfter h anchor, d.message = [] → ∀ c ∈ it, c.sha ≠ d.sha) := by
  obtain ⟨hwf, hnodup⟩ := hWF
  by_cases he : commitsAfter h anchor = []
  · have hne : h ≠ [] := by
      intro hnil
      rw [hnil, show forcedPushIterator [] anchor = none from rfl] at hit
      exact Option.noConfusion hit
    rw [forcedPushIterator_of_empty h anchor ⟨hwf, hnodup⟩ hne he,
      Option.some.injEq] at hit
    have hwl : wfCommit (h.getLast hne) = true := hwf _ (List.getLast_mem hne)
    constructor
    · intro c hc
      by_cases hm : (h.getLast hne).message.isEmpty = true
      · rw [if_pos hm] at hit
        rw [← hit] at hc
        simp at hc
      · rw [if_neg hm] at hit
        rw [← hit] at hc
        have hcg : c = h.getLast hne := by simpa using hc
        exact hcg ▸ wf_elem_facts _ hwl hm
    · intro d hd
      rw [he] at hd
      simp at hd
  · rw [forcedPushIterator_of_ne h anchor ⟨hwf, hnodup⟩ he,
      Option.some.injEq] at hit
    have hmem_facts : ∀ c ∈ it, c ∈ commitsAfter h anchor
        ∧ ¬(c.message.isEmpty = true) := by
      intro c hc
      rw [← hit] at hc
      have := List.mem_filter.mp hc
      exact ⟨this.1, by simpa using this.2⟩
    constructor
    · intro c hc
      obtain ⟨hca, hm⟩ := hmem_facts c hc
      exact wf_elem_facts c (hwf c (commitsAfter_subset h anchor c hca)) hm
    · intro d hd hdm c hc heq
      obtain ⟨hca, hm⟩ := hmem_facts c hc
      have hcd : c = d :=
        sha_inj h hnodup c d (commitsAfter_subset h anchor c hca)
          (commitsAfter_subset h anchor d hd) heq
      rw [hcd, hdm] at hm
      exact hm rfl

/-- C10, witness: the theorem applied to a concrete three-commit history
whose middle commit has an empty message; the walk after the first commit
replays only the final commit. -/
theorem c10_witness :
    (∀ c ∈ [wCommitB], c.sha.length = 40 ∧ c.sha ≠ [] ∧ c.message ≠ [])
    ∧ (∀ d ∈ commitsAfter wHistory3 wSha40a, d.message = [] →
        ∀ c ∈ [wCommitB], c.sha ≠ d.sha) :=
  c10_theorem wHistory3 wSha40a [wCommitB] (by decide) (by decide)

/-! ### Claim C3: blob upload dedup in the verified-commit strategy -/

theorem mem_createGithubBlobs (prev tree : List GitTreeEntry) (e : GitTreeEntry)
    (he : e ∈ createGithubBlobs prev tree) :
    e ∈ tree ∧ ∀ p ∈ prev, p.sha ≠ e.sha := by
  have hf := List.mem_filter.mp he
  refine ⟨hf.1, fun p hpm hps => ?_⟩
  have hany : prev.any (fun q => q.sha == e.sha) = true :=
    List.any_eq_true.mpr ⟨p, hpm, by simp [hps]⟩
  rw [hany] at hf
  simp at hf

theorem blobs_countP_eq (prev tree : List GitTreeEntry) (s : Str)
    (hp : ∀ p ∈ prev, p.sha ≠ s) :
    (createGithubBlobs prev tree).countP (fun e => e.sha == s)
      = tree.countP (fun e => e.sha == s) := by
  unfold createGithubBlobs
  induction tree with
  | nil => rfl
  | cons e t ih =>
    rw [List.filter_cons]
    by_cases hes : e.sha = s
    · have hany : prev.any (fun p => p.sha == e.sha) = false := by
        refine List.any_eq_false.mpr (fun p hpmem => ?_)
        simp [hes, hp p hpmem]
      rw [if_pos (by simp [hany]), List.countP_cons, List.countP_cons, ih]
    · cases hany : prev.any (fun p => p.sha == e.sha) with
      | false =>
        rw [if_pos (by simp [hany]), List.countP_cons, List.countP_cons, ih]
      | true =>
        rw [if_neg (by simp [hany]), ih, List.countP_cons]
        simp [hes]

theorem blobs_countP_zero (prev tree : List GitTreeEntry) (s : Str)
    (hp : ∃ p ∈ prev, p.sha = s) :
    (createGithubBlobs prev tree).countP (fun e => e.sha == s) = 0 := by
  rw [List.countP_eq_zero]
  intro e he hbe
  obtain ⟨p, hpm, hps⟩ := hp
  exact (mem_createGithubBlobs prev tree e he).2 p hpm
    (by rw [hps, (beq_iff_eq ..).mp hbe])

/-- C3, counterexample: with an empty parent tree and a commit tree that
references the same blob sha at two paths, `createGithubBlobs` issues two
uploads for that blob in a single commit — the dedup check consults only
the parent tree, not the blobs already scheduled for this commit. -/
theorem c3_counterexample :
    (createGithubBlobs [] [wTreeE1, wTreeE2]).countP (fun e => e.sha == wBlobSha) = 2
    ∧ ¬((createGithubBlobs [] [wTreeE1, wTreeE2]).countP
        (fun e => e.sha == wBlobSha) ≤ 1) := by
  constructor
  · decide
  · decide

/-- C3 (amended): the publisher uploads only blobs whose sha is absent from
the parent tree; within one commit a blob is uploaded once per referencing
tree entry (so a sha referenced at several paths is uploaded several
times); and across two consecutive commits whose trees share a blob that
the first commit's tree references exactly once (and that its parent does
not contain), the blob is uploaded exactly once in total — never
re-uploaded when its sha already exists in the parent tree. -/
theorem c3_theorem (prev0 tree1 tree2 : List GitTreeEntry) (s : Str) :
    (∀ e ∈ createGithubBlobs prev0 tree1, e ∈ tree1 ∧ ∀ p ∈ prev0, p.sha ≠ e.sha)
    ∧ ((∀ p ∈ prev0, p.sha ≠ s) →
        (createGithubBlobs prev0 tree1).countP (fun e => e.sha == s)
          = tree1.countP (fun e => e.sha == s))
    ∧ ((∃ p ∈ tree1, p.sha = s) →
        (createGithubBlobs tree1 tree2).countP (fun e => e.sha == s) = 0)
    ∧ ((∀ p ∈ prev0, p.sha ≠ s) → tree1.countP (fun e => e.sha == s) = 1 →
        (createGithubBlobs prev0 tree1).countP (fun e => e.sha == s)
          + (createGithubBlobs tree1 tree2).countP (fun e => e.sha == s) = 1) := by
  refine ⟨fun e he => mem_createGithubBlobs prev0 tree1 e he,
    fun hp => blobs_countP_eq prev0 tree1 s hp,
    fun hex => blobs_countP_zero tree1 tree2 s hex, fun hp h1 => ?_⟩
  have hex : ∃ p ∈ tree1, p.sha = s := by
    have hpos : 0 < tree1.countP (fun e => e.sha == s) := by omega
    obtain ⟨p, hpm, hps⟩ := List.countP_pos_iff.mp hpos
    exact ⟨p, hpm, (beq_iff_eq ..).mp hps⟩
  rw [blobs_countP_eq prev0 tree1 s hp, blobs_countP_zero tree1 tree2 s hex, h1]

/-- C3, witness: the amended theorem applied to concrete trees: commit one
introduces the blob at one path, commit two still references it; it is
uploaded exactly once across the two commits. -/
theorem c3_witness :
    (createGithubBlobs [] [wTreeE1]).countP (fun e => e.sha == wBlobSha)
      + (createGithubBlobs [wTreeE1] [wTreeE1, wTreeE3]).countP
          (fun e => e.sha == wBlobSha) = 1 :=
  (c3_theorem [] [wTreeE1] [wTreeE1, wTreeE3] wBlobSha).2.2.2
    (by decide) (by decide)

/-! ### Claim C6: the verified-commit parent chain -/

theorem publishCommitsAux_spec (f : Nat → Str) (ds : List CommitData) :
    ∀ (i : Nat) (last : Str),
      (publishCommitsAux f i last ds).1.length = ds.length
      ∧ (∀ j, j < ds.length →
          ((publishCommitsAux f i last ds).1.getD j dCreated).message
              = (ds.getD j dData).commitMessage
          ∧ ((publishCommitsAux f i last ds).1.getD j dCreated).tree
              = (ds.getD j dData).tree
          ∧ ((publishCommitsAux f i last ds).1.getD j dCreated).parents
              = [if j = 0 then last else f (i + j - 1)])
      ∧ (publishCommitsAux f i last ds).2
          = (if ds.length = 0 then last else f (i + ds.length - 1)) := by
  induction ds with
  | nil =>
    intro i last
    refine ⟨rfl, fun j hj => by simp at hj, by simp [publishCommitsAux]⟩
  | cons d rest ih =>
    intro i last
    have hIH := ih (i + 1) (f i)
    simp only [publishCommitsAux, createGithubTreeAndCommit]
    refine ⟨by simpa using hIH.1, fun j hj => ?_, ?_⟩
    · cases j with
      | zero => simp
      | succ j' =>
        have hj' : j' < rest.length := by
          simpa [Nat.succ_lt_succ_iff] using hj
        have h2 := hIH.2.1 j' hj'
        simp only [List.getD_cons_succ]
        refine ⟨h2.1, h2.2.1, ?_⟩
        rw [h2.2.2]
        by_cases hj0 : j' = 0
        · subst hj0
          simp
        · rw [if_neg hj0, if_neg (by simp [hj0])]
          have : i + 1 + j' - 1 = i + (j' + 1) - 1 := by omega
          rw [this]
    · rw [hIH.2.2]
      simp only [List.length_cons]
      by_cases hr : rest.length = 0
      · rw [if_pos hr, if_neg (by omega)]
        exact congrArg f (by omega)
      · rw [if_neg hr, if_neg (by omega)]
        exact congrArg f (by omega)

/-- C6: in the verified-commit strategy each remote commit is created with
the session's current `lastCommitSha` as its sole parent (the first commit
points at the initial tip, the j-th at the sha the remote assigned to
commit j-1), `lastCommitSha` advances with every created commit, commits
keep the replay order of the pending-commit list, and the final branch-ref
update is forced and points at the last created commit's sha. -/
theorem c6_theorem (last0 : Str) (data : List CommitData) (f : Nat → Str) :
    (createGithubVerifiedCommits last0 data f).1.length = data.length
    ∧ (∀ j, j < data.length →
        ((createGithubVerifiedCommits last0 data f).1.getD j dCreated).message
            = (data.getD j dData).commitMessage
        ∧ ((createGithubVerifiedCommits last0 data f).1.getD j dCreated).tree
            = (data.getD j dData).tree
        ∧ ((createGithubVerifiedCommits last0 data f).1.getD j dCreated).parents
            = [if j = 0 then last0 else f (j - 1)])
    ∧ (createGithubVerifiedCommits last0 data f).2.force = true
    ∧ (createGithubVerifiedCommits last0 data f).2.sha
        = (if data.length = 0 then last0 else f (data.length - 1)) := by
  have hs := publishCommitsAux_spec f data 0 last0
  simp only [createGithubVerifiedCommits]
  refine ⟨hs.1, fun j hj => ?_, by trivial, ?_⟩
  · have h2 := hs.2.1 j hj
    simpa using h2
  · have hf := hs.2.2
    simpa using hf

/-- C6, witness: two concrete pending commits; the first is parented on the
initial tip, the second on the remote sha of the first, and the forced ref
update points at the remote sha of the second. -/
theorem c6_witness :
    ((createGithubVerifiedCommits (str "base") wCommitsData wNewSha).1.getD 0
        dCreated).parents = [str "base"]
    ∧ ((createGithubVerifiedCommits (str "base") wCommitsData wNewSha).1.getD 1
        dCreated).parents = [wNewSha 0]
    ∧ (createGithubVerifiedCommits (str "base") wCommitsData wNewSha).2.force = true
    ∧ (createGithubVerifiedCommits (str "base") wCommitsData wNewSha).2.sha
        = wNewSha 1 := by
  have hh := c6_theorem (str "base") wCommitsData wNewSha
  refine ⟨?_, ?_, hh.2.2.1, ?_⟩
  · have h0 := (hh.2.1 0 (by decide)).2.2
    simpa using h0
  · have h1 := (hh.2.1 1 (by decide)).2.2
    simpa using h1
  · have hf := hh.2.2.2
    simpa [wCommitsData] using hf

/-! ### Claim C5: the issue-reference rewrite of replayed commit messages -/

theorem dropWhile_length_le (p : Char → Bool) (l : Str) :
    (l.dropWhile p).length ≤ l.length := by
  induction l with
  | nil => simp
  | cons c t ih =>
    rw [List.dropWhile_cons]
    by_cases hc : p c = true
    · rw [if_pos hc]
      exact le_trans ih (by simp)
    · rw [if_neg hc]

theorem rewriteFuel_congr (u : Str) :
    ∀ (n m : Nat) (s : Str), s.length ≤ n → s.length ≤ m →
      rewriteFuel u n s = rewriteFuel u m s := by
  intro n
  induction n with
  | zero =>
    intro m s hn _
    have hs : s = [] := List.length_eq_zero.mp (Nat.le_zero.mp hn)
    subst hs
    cases m <;> rfl
  | succ n ih =>
    intro m s hn hm
    cases s with
    | nil => cases m <;> rfl
    | cons c rest =>
      cases m with
      | zero => simp at hm
      | succ m' =>
        have hrn : rest.length ≤ n := by simpa using hn
        have hrm : rest.length ≤ m' := by simpa using hm
        simp only [rewriteFuel]
        by_cases hc : c = '#'
        · simp only [if_pos hc]
          by_cases hd : (rest.takeWhile Char.isDigit).isEmpty
          · simp only [if_pos hd]
            exact congrArg _ (ih m' rest hrn hrm)
          · simp only [if_neg hd]
            have hdl : (rest.dropWhile Char.isDigit).length ≤ rest.length :=
              dropWhile_length_le ..
            rw [ih m' (rest.dropWhile Char.isDigit) (by omega) (by omega)]
        · simp only [if_neg hc]
          exact congrArg _ (ih m' rest hrn hrm)

theorem rewrite_cons_ne (u : Str) (c : Char) (rest : Str) (hc : ¬(c = '#')) :
    rewriteIssueRefs u (c :: rest) = c :: rewriteIssueRefs u rest := by
  unfold rewriteIssueRefs
  simp only [List.length_cons, rewriteFuel, if_neg hc]

theorem rewrite_no_hash (u : Str) (s : Str) (h : ∀ c ∈ s, ¬(c = '#')) :
    rewriteIssueRefs u s = s := by
  induction s with
  | nil => rfl
  | cons c rest ih =>
    rw [rewrite_cons_ne u c rest (h c (by simp)),
      ih (fun d hd => h d (List.mem_cons_of_mem _ hd))]

theorem rewrite_hash (u digits b : Str) (hd : digits ≠ [])
    (hall : ∀ ch ∈ digits, ch.isDigit = true)
    (hb : ∀ ch, b.head? = some ch → ch.isDigit = false) :
    rewriteIssueRefs u ('#' :: (digits ++ b))
      = u ++ str "/pull/" ++ digits ++ rewriteIssueRefs u b := by
  have htake : (digits ++ b).takeWhile Char.isDigit = digits := by
    rw [takeWhile_append_of_all Char.isDigit digits b hall,
      takeWhile_eq_nil_of_head Char.isDigit b hb, List.append_nil]
  have hdrop : (digits ++ b).dropWhile Char.isDigit = b := by
    rw [dropWhile_append_of_all Char.isDigit digits b hall,
      dropWhile_eq_self_of_head Char.isDigit b hb]
  have hdne : digits.isEmpty = false := by
    cases digits with
    | nil => exact absurd rfl hd
    | cons x xs => rfl
  unfold rewriteIssueRefs
  simp only [List.length_cons, rewriteFuel, List.append_eq, eq_self_iff_true,
    if_true, htake, hdrop, hdne, Bool.false_eq_true, if_false]
  rw [rewriteFuel_congr u (digits ++ b).length b.length b (by simp) (by omega)]

theorem rewriteIssueRefs_append (u a digits b : Str)
    (ha : ∀ ch ∈ a, ¬(ch = '#')) (hd : digits ≠ [])
    (hall : ∀ ch ∈ digits, ch.isDigit = true)
    (hb : ∀ ch, b.head? = some ch → ch.isDigit = false) :
    rewriteIssueRefs u (a ++ ('#' :: (digits ++ b)))
      = a ++ u ++ str "/pull/" ++ digits ++ rewriteIssueRefs u b := by
  induction a with
  | nil => simpa using rewrite_hash u digits b hd hall hb
  | cons c a' ih =>
    rw [List.cons_append, rewrite_cons_ne u c _ (ha c (by simp)),
      ih (fun ch hch => ha ch (List.mem_cons_of_mem _ hch))]
    simp [List.cons_append]

theorem replayLoop_dest_mem (u : Str) (hasPr : Bool) (changed : Nat → Bool)
    (l : List SourceCommit) :
    ∀ (i : Nat) (m : Str),
      RunEvent.destCommit m ∈ (replayLoop u hasPr changed i l).1 →
      ∃ c ∈ l, m = rewriteIssueRefs u c.message := by
  induction l with
  | nil =>
    intro i m hm
    simp [replayLoop] at hm
  | cons c rest ih =>
    intro i m hm
    simp only [replayLoop] at hm
    rcases List.mem_append.mp hm with h1 | h1
    · cases hch : changed i with
      | true =>
        simp [replayStep, hch] at h1
        exact ⟨c, by simp, h1⟩
      | false =>
        cases hasPr <;> simp [replayStep, hch] at h1
    · obtain ⟨c', hc', he⟩ := ih (i + 1) m h1
      exact ⟨c', List.mem_cons_of_mem _ hc', he⟩

/-- C5, counterexample: the claim says only parenthesized `(#N)` references
are rewritten, but the compiled regex is `(#([0-9]+))` (the backslashes are
dropped inside the JS string literal), so a bare `#7` with no parentheses
is also rewritten: the destination commit message for source message
`fix #7` is not `fix #7`. -/
theorem c5_counterexample :
    containsParenIssueRef (str "fix #7") = false
    ∧ (replayLoop (str "https://github.com/o/r") true wChangedTrue 0
        [{ sha := wSha40a, message := str "fix #7" }]).1
      = [RunEvent.destCommit (str "fix https://github.com/o/r/pull/7")]
    ∧ ¬(str "fix https://github.com/o/r/pull/7" = str "fix #7") := by
  refine ⟨by decide, by decide, by decide⟩

/-- C5 (amended): every destination commit created by the replay loop
carries the source message rewritten by the code's regex; that regex
rewrites every maximal `#<digits>` run — parenthesized or not — to
`<html_url>/pull/<digits>`, leaving any surrounding parentheses in place,
so `fix (#42)` becomes `fix (<html_url>/pull/42)`. -/
theorem c5_theorem (htmlUrl : Str) (hasPr : Bool) (changed : Nat → Bool)
    (iterator : List SourceCommit) :
    (∀ m, RunEvent.destCommit m ∈ (replayLoop htmlUrl hasPr changed 0 iterator).1 →
      ∃ c ∈ iterator, m = rewriteIssueRefs htmlUrl c.message)
    ∧ (∀ a digits b : Str, (∀ ch ∈ a, ¬(ch = '#')) → digits ≠ [] →
        (∀ ch ∈ digits, ch.isDigit = true) →
        (∀ ch, b.head? = some ch → ch.isDigit = false) →
        rewriteIssueRefs htmlUrl (a ++ ('#' :: (digits ++ b)))
          = a ++ htmlUrl ++ str "/pull/" ++ digits ++ rewriteIssueRefs htmlUrl b)
    ∧ rewriteIssueRefs htmlUrl (str "fix (#42)")
        = str "fix (" ++ htmlUrl ++ str "/pull/42)" := by
  refine ⟨fun m hm => replayLoop_dest_mem htmlUrl hasPr changed iterator 0 m hm,
    fun a digits b ha hd hall hb =>
      rewriteIssueRefs_append htmlUrl a digits b ha hd hall hb, ?_⟩
  have h1 := rewriteIssueRefs_append htmlUrl (str "fix (") (str "42") (str ")")
    (by decide) (by decide) (by decide) (by decide)
  have h2 : rewriteIssueRefs htmlUrl (str ")") = str ")" :=
    rewrite_no_hash htmlUrl (str ")") (by decide)
  rw [show str "fix (#42)"
      = str "fix (" ++ ('#' :: (str "42" ++ str ")")) from rfl, h1, h2]
  simp only [List.append_assoc]
  congr 1

/-- C5, witness: the amended theorem's rewrite rule applied to a concrete
bare reference inside a message. -/
theorem c5_witness :
    rewriteIssueRefs (str "https://github.com/o/r") (str "see #7 now")
      = str "see " ++ str "https://github.com/o/r" ++ str "/pull/" ++ str "7"
        ++ rewriteIssueRefs (str "https://github.com/o/r") (str " now") :=
  (c5_theorem (str "https://github.com/o/r") true wChangedTrue []).2.1
    (str "see ") (str "7") (str " now")
    (by decide) (by decide) (by decide) (by decide)

/-! ### Claim C7: the no-op replay iteration and the early return -/

theorem replayLoop_unchanged (u : Str) (hasPr : Bool) (changed : Nat → Bool)
    (hch : ∀ i, changed i = false) :
    ∀ (i : Nat) (l : List SourceCommit),
      replayLoop u hasPr changed i l
        = ((if hasPr then List.replicate l.length RunEvent.removeWarning else []),
           []) := by
  intro i l
  revert i
  induction l with
  | nil =>
    intro i
    cases hasPr <;> simp [replayLoop]
  | cons c rest ih =>
    intro i
    simp only [replayLoop, replayStep, hch i]
    rw [ih (i + 1)]
    cases hasPr <;> simp [List.replicate_succ]

/-- C7, counterexample: an identical re-run with no new changes against an
open PR does not return the existing PR's number — the run returns early
before `createOrUpdatePr`, producing no PR result at all. -/
theorem c7_counterexample :
    (runPublishPhase (str "https://github.com/o/r") (some wPrA) wChangedFalse
        [wCommitA] 99).2 = none
    ∧ ¬((runPublishPhase (str "https://github.com/o/r") (some wPrA) wChangedFalse
        [wCommitA] 99).2 = some wPrA.number) := by
  refine ⟨by decide, by decide⟩

/-- C7 (amended): when every replay iteration detects no working-tree
changes against an existing PR, every iteration removes the PR warning
banner and nothing else happens: zero destination commits, no push, no PR
created or updated, and the run ends early with no PR number returned
(the existing PR itself is left in place, merely with its banner
removed). -/
theorem c7_theorem (htmlUrl : Str) (pr : ExistingPr) (changed : Nat → Bool)
    (iterator : List SourceCommit) (newPrNumber : Nat)
    (hch : ∀ i, changed i = false) (hne : iterator ≠ []) :
    (runPublishPhase htmlUrl (some pr) changed iterator newPrNumber).1
      = List.replicate iterator.length RunEvent.removeWarning
    ∧ (∀ m, ¬(RunEvent.destCommit m
        ∈ (runPublishPhase htmlUrl (some pr) changed iterator newPrNumber).1))
    ∧ RunEvent.removeWarning
        ∈ (runPublishPhase htmlUrl (some pr) changed iterator newPrNumber).1
    ∧ ¬(RunEvent.createPr
        ∈ (runPublishPhase htmlUrl (some pr) changed iterator newPrNumber).1)
    ∧ (runPublishPhase htmlUrl (some pr) changed iterator newPrNumber).2 = none := by
  have hloop := replayLoop_unchanged htmlUrl true changed hch 0 iterator
  have hphase : runPublishPhase htmlUrl (some pr) changed iterator newPrNumber
      = (List.replicate iterator.length RunEvent.removeWarning, none) := by
    simp only [runPublishPhase, Option.isSome_some]
    rw [hloop]
    simp
  have hlen : iterator.length ≠ 0 := by
    intro h0
    exact hne (List.length_eq_zero.mp h0)
  refine ⟨by rw [hphase], fun m hm => ?_, ?_, fun hm => ?_, by rw [hphase]⟩
  · rw [hphase] at hm
    exact RunEvent.noConfusion (List.eq_of_mem_replicate hm)
  · rw [hphase]
    exact List.mem_replicate.mpr ⟨hlen, rfl⟩
  · rw [hphase] at hm
    exact RunEvent.noConfusion (List.eq_of_mem_replicate hm)

/-- C7, witness: the amended theorem applied to a concrete two-commit
replay with no changes at either iteration. -/
theorem c7_witness :
    (runPublishPhase (str "u") (some wPrA) wChangedFalse [wCommitA, wCommitB]
        99).1 = List.replicate 2 RunEvent.removeWarning
    ∧ (runPublishPhase (str "u") (some wPrA) wChangedFalse [wCommitA, wCommitB]
        99).2 = none := by
  have hh := c7_theorem (str "u") wPrA wChangedFalse [wCommitA, wCommitB] 99
    (fun i => rfl) (by decide)
  exact ⟨hh.1, hh.2.2.2.2⟩

/-! ### Claims C8, C9: PR metadata application and auto-merge -/

/-- C8, counterexample: in a fork workflow with auto-merge configured, the
auto-merge step is still attempted — its guard checks only that the method
input is defined, with no fork check — so the metadata calls are not "all
skipped entirely". -/
theorem c8_counterexample :
    MetaStep.autoMerge ∈ metaSteps wMetaForkCfg
    ∧ ¬(metaSteps wMetaForkCfg = []) := by
  refine ⟨by decide, by decide⟩

/-- C8 (amended): the set of attempted metadata steps is independent of
which calls fail (each step runs in its own try/catch, so a failure
degrades to a warning and later steps still run; a step is warned exactly
when its call fails); with a fork workflow active, labels, assignees,
reviewers, and team reviewers are skipped, but the auto-merge step is
still attempted whenever its method input is defined. -/
theorem c8_theorem (cfg : MetaConfig) (fails : MetaStep → Bool) :
    ((runMetadataPhase cfg fails).map Prod.fst = metaSteps cfg)
    ∧ (∀ s, s ∈ metaSteps cfg → fails s = true →
        (s, StepOutcome.warned) ∈ runMetadataPhase cfg fails)
    ∧ (∀ s out, (s, out) ∈ runMetadataPhase cfg fails →
        out = StepOutcome.warned → fails s = true)
    ∧ (cfg.fork = true →
        metaSteps cfg = (match cfg.autoMergeMergeMethod with
          | some _ => [MetaStep.autoMerge]
          | none => [])) := by
  refine ⟨?_, ?_, ?_, ?_⟩
  · simp only [runMetadataPhase, List.map_map]
    exact List.map_id _
  · intro s hs hf
    exact List.mem_map.mpr ⟨s, hs, by simp [hf]⟩
  · intro s out hmem hout
    obtain ⟨a, _, hpair⟩ := List.mem_map.mp hmem
    have ha : a = s := congrArg Prod.fst hpair
    subst ha
    cases hfs : fails a with
    | true => rfl
    | false =>
      have : StepOutcome.ok = out := by
        have := congrArg Prod.snd hpair
        simpa [hfs] using this
      rw [← this] at hout
      exact StepOutcome.noConfusion hout
  · intro hfork
    obtain ⟨pl, asg, rev, trev, amm, fk⟩ := cfg
    simp only at hfork
    subst hfork
    cases pl <;> cases asg <;> cases rev <;> cases trev <;>
      simp [metaSteps]

/-- C8, witness: a non-fork configuration with labels, assignees and
auto-merge configured, where only the labels call fails: the attempted
steps are unchanged and the labels step is recorded as warned. -/
theorem c8_witness :
    ((runMetadataPhase wMetaNoForkCfg wFailsLabels).map Prod.fst
      = metaSteps wMetaNoForkCfg)
    ∧ (MetaStep.labels, StepOutcome.warned)
        ∈ runMetadataPhase wMetaNoForkCfg wFailsLabels := by
  have hh := c8_theorem wMetaNoForkCfg wFailsLabels
  exact ⟨hh.1, hh.2.1 MetaStep.labels (by decide) (by decide)⟩

/-- C9, counterexample: an unsupported auto-merge method is not fatal and
does not stop the mutation: `core.error` only logs an annotation, after
which the id lookup and the `enablePullRequestAutoMerge` mutation are still
issued with the upper-cased method value. -/
theorem c9_counterexample :
    validAutoMergeMethod (str "octopus") = false
    ∧ enablePrAutoMerge true (str "octopus")
        = [AutoMergeEvent.errorLog, AutoMergeEvent.lookupPrId,
           AutoMergeEvent.mutationAttempt (str "OCTOPUS")]
    ∧ AutoMergeEvent.mutationAttempt (str "OCTOPUS")
        ∈ enablePrAutoMerge true (str "octopus") := by
  refine ⟨by decide, by decide, by decide⟩

/-- C9 (amended): an unsupported auto-merge method value (anything whose
upper-casing is not MERGE, REBASE or SQUASH) produces an error-log
annotation, after which the auto-merge mutation is still attempted with
the upper-cased value; the step runs inside the caller's try/catch like
every metadata step, so any resulting failure is recorded as a warning and
the session does not abort. -/
theorem c9_theorem (m : Str) (hm : validAutoMergeMethod m = false)
    (cfg : MetaConfig) (fails : MetaStep → Bool)
    (hcfg : cfg.autoMergeMergeMethod.isSome = true) :
    enablePrAutoMerge true m
        = [AutoMergeEvent.errorLog, AutoMergeEvent.lookupPrId,
           AutoMergeEvent.mutationAttempt (upperStr m)]
    ∧ AutoMergeEvent.mutationAttempt (upperStr m) ∈ enablePrAutoMerge true m
    ∧ MetaStep.autoMerge ∈ metaSteps cfg
    ∧ ((MetaStep.autoMerge,
        if fails MetaStep.autoMerge then StepOutcome.warned else StepOutcome.ok)
        ∈ runMetadataPhase cfg fails) := by
  have h1 : enablePrAutoMerge true m
      = [AutoMergeEvent.errorLog, AutoMergeEvent.lookupPrId,
         AutoMergeEvent.mutationAttempt (upperStr m)] := by
    simp [enablePrAutoMerge, hm]
  have h3 : MetaStep.autoMerge ∈ metaSteps cfg := by
    cases hc : cfg.autoMergeMergeMethod with
    | none => rw [hc] at hcfg; exact Bool.noConfusion hcfg
    | some v => simp [metaSteps, hc]
  refine ⟨h1, by simp [h1], h3, List.mem_map.mpr ⟨MetaStep.autoMerge, h3, rfl⟩⟩

/-- C9, witness: the amended theorem applied to the concrete unsupported
method value `banana` under the fork configuration. -/
theorem c9_witness :
    enablePrAutoMerge true (str "banana")
        = [AutoMergeEvent.errorLog, AutoMergeEvent.lookupPrId,
           AutoMergeEvent.mutationAttempt (upperStr (str "banana"))]
    ∧ MetaStep.autoMerge ∈ metaSteps wMetaForkCfg := by
  have hh := c9_theorem (str "banana") (by decide) wMetaForkCfg wFailsLabels
    (by decide)
  exact ⟨hh.1, hh.2.2.1⟩

/-! ### Claim C4: the pull-request title -/

theorem isPrefixOf_append_self (l r : Str) : l.isPrefixOf (l ++ r) = true := by
  induction l with
  | nil => simp [List.isPrefixOf]
  | cons a as ih => simp [List.isPrefixOf, ih]

theorem replaceFirstStr_prefix (pat repl rest : Str) (hne : pat ≠ []) :
    replaceFirstStr pat repl (pat ++ rest) = repl ++ rest := by
  cases pat with
  | nil => exact absurd rfl hne
  | cons p0 p' =>
    have hpre : (p0 :: p').isPrefixOf (p0 :: (p' ++ rest)) = true := by
      rw [← List.cons_append]
      exact isPrefixOf_append_self (p0 :: p') rest
    rw [List.cons_append]
    simp only [replaceFirstStr]
    rw [if_pos hpre]
    congr 1
    rw [List.length_cons, List.drop_succ_cons, List.drop_left]

theorem replaceFirstStr_append_head (p0 : Char) (p' repl x y : Str)
    (hx : p0 ∉ x) :
    replaceFirstStr (p0 :: p') repl (x ++ y)
      = x ++ replaceFirstStr (p0 :: p') repl y := by
  induction x with
  | nil => rfl
  | cons c x' ih =>
    have hc : (p0 == c) = false := by
      refine beq_false_of_ne (fun e => hx ?_)
      rw [e]
      exact List.mem_cons_self c x'
    have hpre : (p0 :: p').isPrefixOf (c :: (x' ++ y)) = false := by
      simp [List.isPrefixOf, hc]
    rw [List.cons_append]
    simp only [replaceFirstStr]
    rw [if_neg (by simp [hpre]), ih (fun hm => hx (List.mem_cons_of_mem _ hm))]
    rfl

theorem replaceFirst_fix (ownerRepo : Str) :
    replaceFirstStr (str "https://github.com/") []
        (str "fix (" ++ (str "https://github.com/" ++ ownerRepo)
          ++ str "/pull/" ++ str "42" ++ str ")")
      = str "fix (" ++ ownerRepo ++ str "/pull/" ++ str "42" ++ str ")" := by
  simp only [List.append_assoc]
  rw [show str "https://github.com/" = 'h' :: str "ttps://github.com/" from rfl,
    replaceFirstStr_append_head 'h' (str "ttps://github.com/") [] (str "fix (")
      _ (by decide),
    replaceFirstStr_prefix ('h' :: str "ttps://github.com/") [] _ (by simp)]
  simp

/-- C4, counterexample: for the end-to-end scenario the created PR title is
not `fix (https://github.com/<owner>/<repo>/pull/42); docs`:
`createOrUpdatePr` additionally strips the first `https://github.com/`
occurrence from each rewritten message before building the title. -/
theorem c4_counterexample :
    prTitle (str "https://github.com/o/r") [str "fix (#42)", str "docs"]
      = str "fix (o/r/pull/42); docs"
    ∧ ¬(prTitle (str "https://github.com/o/r") [str "fix (#42)", str "docs"]
      = str "fix (https://github.com/o/r/pull/42); docs") := by
  refine ⟨by decide, by decide⟩

/-- C4 (amended): the PR title is the semicolon-joined first lines of the
aggregated commit messages after `createOrUpdatePr`'s rewrite: every `#N`
becomes `<html_url>/pull/N` and the first `https://github.com/` occurrence
is then removed; for the end-to-end scenario (non-forced push, no existing
PR, payload messages `fix (#42)` and `docs`) the title is
`fix (<owner>/<repo>/pull/42); docs`. -/
theorem c4_theorem (ownerRepo : Str) (hnl : ∀ ch ∈ ownerRepo, ¬(ch = '\n')) :
    prTitle (str "https://github.com/" ++ ownerRepo)
        (selectCommitMessages false false [] [] [str "fix (#42)", str "docs"])
      = str "fix (" ++ (ownerRepo ++ str "/pull/42); docs") := by
  have hsel : selectCommitMessages false false [] [] [str "fix (#42)", str "docs"]
      = [str "fix (#42)", str "docs"] := rfl
  have h1 := rewriteIssueRefs_append (str "https://github.com/" ++ ownerRepo)
    (str "fix (") (str "42") (str ")") (by decide) (by decide) (by decide)
    (by decide)
  rw [rewrite_no_hash (str "https://github.com/" ++ ownerRepo) (str ")")
    (by decide)] at h1
  have hm1 : prMessageRewrite (str "https://github.com/" ++ ownerRepo)
      (str "fix (#42)")
      = str "fix (" ++ ownerRepo ++ str "/pull/" ++ str "42" ++ str ")" := by
    unfold prMessageRewrite
    rw [show str "fix (#42)"
        = str "fix (" ++ ('#' :: (str "42" ++ str ")")) from rfl, h1]
    exact replaceFirst_fix ownerRepo
  have hm2 : prMessageRewrite (str "https://github.com/" ++ ownerRepo)
      (str "docs") = str "docs" := by
    unfold prMessageRewrite
    rw [rewrite_no_hash (str "https://github.com/" ++ ownerRepo) (str "docs")
      (by decide)]
    rfl
  have hall : (str "fix (" ++ ownerRepo ++ str "/pull/" ++ str "42"
      ++ str ")").all (fun c => !(c == '\n')) = true := by
    simp only [List.all_append, Bool.and_eq_true]
    refine ⟨⟨⟨⟨by decide, ?_⟩, by decide⟩, by decide⟩, by decide⟩
    exact List.all_eq_true.mpr (fun c hc => by simpa using hnl c hc)
  have hfl1 : (splitOnCharJS '\n'
      (str "fix (" ++ ownerRepo ++ str "/pull/" ++ str "42" ++ str ")")).headD []
      = str "fix (" ++ ownerRepo ++ str "/pull/" ++ str "42" ++ str ")" := by
    rw [splitJS_headD]
    exact takeWhile_eq_self_of_all _ _ (List.all_eq_true.mp hall)
  unfold prTitle
  rw [hsel]
  simp only [List.map_cons, List.map_nil]
  rw [hm1, hm2, hfl1]
  simp only [joinSep2]
  rw [show (splitOnCharJS '\n' (str "docs")).headD [] = str "docs" from rfl]
  simp only [List.append_assoc]
  rfl

/-- C4, witness: the amended theorem applied to the concrete repository
path `o/r`. -/
theorem c4_witness :
    prTitle (str "https://github.com/" ++ str "o/r")
        (selectCommitMessages false false [] [] [str "fix (#42)", str "docs"])
      = str "fix (" ++ (str "o/r" ++ str "/pull/42); docs") :=
  c4_theorem (str "o/r") (by decide)

end RepoFileSync
